import Mathlib

/-!
Shallow embedding of the liasiondb in-memory knowledge-graph engine
(`src/main.rs`, `struct KnowledgeBase` and its methods).

Modelling conventions:
* `IndexSet<Node>` is a duplicate-free `List Node` in insertion order;
  `insert` appends when absent and reports whether the element was new,
  `get_index_of` is the (first) position of the element.
* `BTreeMap<(usize, usize), Edge>` is an association list kept sorted by
  the lexicographic key order `keyLt`; `entry(k).or_insert_with(e)` is
  `insertEdgeSorted`, which keeps the existing entry when the key is
  already present.  `range((c, MIN)..(c+1, MIN))` is `rangeFrom`, which on
  a sorted table yields the edges with source `c` in ascending
  destination order.
* `Iterator::max_by_key(version)` returns the last maximal element; this
  is `pickNext` (ties are replaced by the later entry).
* Rust `usize` becomes `Nat` and `i32` versions become `Int` (the code
  only ever compares versions, so no wrap-around behaviour is involved).
* The unbounded `loop` of `traverse_latest_path` is given explicit fuel
  and returns `none` when the fuel is exhausted; the Rust loop terminates
  with path `p` exactly when some fuel yields `some p`.
* The two BFS routines always terminate in Rust; their embedding carries
  fuel `ref_table.length + 1`, which is enough because every dequeued
  index other than the start was enqueued by some distinct table entry.
-/

/-- `Node` from the source: identity is the pair (content, filename). -/
structure Node where
  content : String
  filename : String
deriving DecidableEq, Repr

/-- `Edge` from the source: a version number and a free-form tag. -/
structure Edge where
  version : Int
  tag : String
deriving DecidableEq, Repr

/-- Lexicographic order on `(usize, usize)` keys, as used by `BTreeMap`. -/
def keyLt (a b : Nat × Nat) : Prop :=
  a.1 < b.1 ∨ (a.1 = b.1 ∧ a.2 < b.2)

instance (a b : Nat × Nat) : Decidable (keyLt a b) := by
  unfold keyLt
  exact inferInstance

/-- A `BTreeMap` value is sorted strictly by key. -/
def TableSorted (t : List ((Nat × Nat) × Edge)) : Prop :=
  List.Pairwise (fun x y => keyLt x.1 y.1) t

instance (t : List ((Nat × Nat) × Edge)) : Decidable (TableSorted t) := by
  unfold TableSorted
  exact inferInstance

/-- `edge_table.entry(k).or_insert_with(|| e)`: ordered insertion that
keeps the already-present entry for `k` untouched (first write wins). -/
def insertEdgeSorted : List ((Nat × Nat) × Edge) → (Nat × Nat) → Edge →
    List ((Nat × Nat) × Edge)
  | [], k, e => [(k, e)]
  | (k', e') :: rest, k, e =>
    if keyLt k k' then (k, e) :: (k', e') :: rest
    else if k = k' then (k', e') :: rest
    else (k', e') :: insertEdgeSorted rest k e

/-- Map lookup (`BTreeMap::get`): the entry stored at key `k`, if any. -/
def lookupEdge : List ((Nat × Nat) × Edge) → (Nat × Nat) → Option Edge
  | [], _ => none
  | (k', e) :: rest, k => if k = k' then some e else lookupEdge rest k

/-- `table.range((c, usize::MIN)..(c + 1, usize::MIN))`: all entries whose
source index is `c`, in table order. -/
def rangeFrom (t : List ((Nat × Nat) × Edge)) (c : Nat) :
    List ((Nat × Nat) × Edge) :=
  t.filter (fun kv => kv.1.1 == c)

/-- First position of `a` in `l` (total counterpart of
`IndexSet::get_index_of`, which the source always calls right after an
insertion, so the element is present). -/
def idxOfD {α : Type} [DecidableEq α] : List α → α → Nat
  | [], _ => 0
  | b :: l, a => if b = a then 0 else idxOfD l a + 1

/-- `IndexSet::insert`: append when absent; the Bool is `true` iff the
element was newly inserted. -/
def insertDedup {α : Type} [DecidableEq α] (l : List α) (a : α) :
    List α × Bool :=
  if a ∈ l then (l, false) else (l ++ [a], true)

/-- The `KnowledgeBase` state: structural edges, reference edges, nodes. -/
structure KnowledgeBase where
  edge_table : List ((Nat × Nat) × Edge)
  ref_table : List ((Nat × Nat) × Edge)
  node_table : List Node
deriving DecidableEq, Repr

/-- `KnowledgeBase::new()`. -/
def emptyKB : KnowledgeBase :=
  { edge_table := [], ref_table := [], node_table := [] }

/-- `KnowledgeBase::insert_directory`. -/
def insert_directory (kb : KnowledgeBase) (directory_path : String) :
    KnowledgeBase × Nat :=
  let dir_node : Node := ⟨"DIR: " ++ directory_path, ""⟩
  let nt := (insertDedup kb.node_table dir_node).1
  ({ kb with node_table := nt }, idxOfD nt dir_node)

/-- `KnowledgeBase::insert_node`. -/
def insert_node (kb : KnowledgeBase) (content filename : String) :
    KnowledgeBase × Nat :=
  let node : Node := ⟨content, filename⟩
  let nt := (insertDedup kb.node_table node).1
  ({ kb with node_table := nt }, idxOfD nt node)

/-- Rust `str::split('\n')` on the underlying character sequence. -/
def splitOnNewline : List Char → List (List Char)
  | [] => [[]]
  | c :: cs =>
    if c = '\n' then [] :: splitOnNewline cs
    else
      match splitOnNewline cs with
      | [] => [[c]]
      | l :: ls => (c :: l) :: ls

/-- The segmentation in `insert_markdown`: split the document on newlines,
drop empty lines, and make each remaining line a `Node` carrying the
source filename. -/
def segmentUnits (markdown_content filename : String) : List Node :=
  ((splitOnNewline markdown_content.toList).filter (fun l => !l.isEmpty)).map
    (fun l => Node.mk (String.mk l) filename)

/-- The `for window in content_nodes.windows(2)` loop of `insert_markdown`:
insert the destination node, look both indices up, extend
`new_node_indices` when the destination is new, and insert the structural
edge if absent.  Arguments: current "from" node, remaining nodes, node
table, edge table, collected new indices. -/
def processPairs (version : Int) (tag : String) :
    Node → List Node → List Node → List ((Nat × Nat) × Edge) → List Nat →
    List Node × List ((Nat × Nat) × Edge) × List Nat
  | _, [], nt, et, news => (nt, et, news)
  | from_node, to_node :: rest, nt, et, news =>
    let ins := insertDedup nt to_node
    let nt' := ins.1
    let from_idx := idxOfD nt' from_node
    let to_idx := idxOfD nt' to_node
    let news' := if ins.2 then news ++ [to_idx] else news
    let et' := insertEdgeSorted et (from_idx, to_idx) ⟨version, tag⟩
    processPairs version tag to_node rest nt' et' news'

/-- The `for reference_node in reference_nodes` loop of `insert_markdown`:
insert each reference node and add a reference edge (if absent) from it to
every collected new-node index. -/
def processRefs (version : Int) (tag : String) (news : List Nat) :
    List Node → List Node → List ((Nat × Nat) × Edge) →
    List Node × List ((Nat × Nat) × Edge)
  | [], nt, rt => (nt, rt)
  | r :: rest, nt, rt =>
    let nt' := (insertDedup nt r).1
    let from_idx := idxOfD nt' r
    let rt' := news.foldl
      (fun acc to_idx => insertEdgeSorted acc (from_idx, to_idx) ⟨version, tag⟩) rt
    processRefs version tag news rest nt' rt'

/-- `KnowledgeBase::insert_markdown`, additionally returning the internal
`new_node_indices` list (which the Rust function builds but does not
return); `insert_markdown` below discards it. -/
def insertMarkdownCore (kb : KnowledgeBase) (markdown_content filename : String)
    (parent_idx : Nat) (reference_nodes : List Node) (version : Int)
    (tag : String) : KnowledgeBase × Nat × List Nat :=
  let file_node : Node := ⟨"FILE: " ++ filename, filename⟩
  let nt1 := (insertDedup kb.node_table file_node).1
  let file_idx := idxOfD nt1 file_node
  let et1 := insertEdgeSorted kb.edge_table (parent_idx, file_idx) ⟨version, tag⟩
  match segmentUnits markdown_content filename with
  | [] =>
    ({ edge_table := et1, ref_table := kb.ref_table, node_table := nt1 },
      file_idx, [])
  | first :: rest =>
    let nt2 := (insertDedup nt1 first).1
    let first_idx := idxOfD nt2 first
    let et2 := insertEdgeSorted et1 (file_idx, first_idx) ⟨version, tag⟩
    let pp := processPairs version tag first rest nt2 et2 [first_idx]
    let pr := processRefs version tag pp.2.2 reference_nodes pp.1 kb.ref_table
    ({ edge_table := pp.2.1, ref_table := pr.2, node_table := pr.1 },
      file_idx, pp.2.2)

/-- `KnowledgeBase::insert_markdown` (returns the file node's index). -/
def insert_markdown (kb : KnowledgeBase) (markdown_content filename : String)
    (parent_idx : Nat) (reference_nodes : List Node) (version : Int)
    (tag : String) : KnowledgeBase × Nat :=
  let c := insertMarkdownCore kb markdown_content filename parent_idx
    reference_nodes version tag
  (c.1, c.2.1)

/-- One step of `max_by_key(|(_, edge)| edge.version)`: keep the later
entry on ties, exactly as Rust's `max_by_key` returns the last maximum. -/
def pickStep (acc : Option ((Nat × Nat) × Edge)) (kv : (Nat × Nat) × Edge) :
    Option ((Nat × Nat) × Edge) :=
  match acc with
  | none => some kv
  | some b => if b.2.version ≤ kv.2.version then some kv else some b

/-- `range(..).max_by_key(version)` over a list of edges. -/
def pickNext (l : List ((Nat × Nat) × Edge)) : Option ((Nat × Nat) × Edge) :=
  l.foldl pickStep none

/-- The edge chosen by one iteration of the `traverse_latest_path` loop. -/
def nextEdgeFrom (t : List ((Nat × Nat) × Edge)) (c : Nat) :
    Option ((Nat × Nat) × Edge) :=
  pickNext (rangeFrom t c)

/-- The `loop` of `traverse_latest_path`, with explicit fuel: push the
current index, follow the highest-version outgoing edge, stop when there
is none.  `none` means the fuel ran out before the loop terminated. -/
def traverseAux (t : List ((Nat × Nat) × Edge)) :
    Nat → Nat → Option (List Nat)
  | 0, _ => none
  | fuel + 1, c =>
    match nextEdgeFrom t c with
    | none => some [c]
    | some kv => (traverseAux t fuel kv.1.2).map (fun p => c :: p)

/-- `KnowledgeBase::traverse_latest_path`, fuelled. -/
def traverse_latest_path (kb : KnowledgeBase) (fuel start_idx : Nat) :
    Option (List Nat) :=
  traverseAux kb.edge_table fuel start_idx

/-- The inner edge scan shared by both BFS routines: for each candidate
pair `(check, value)` in order, if `check` equals the current index and
`value` is unvisited, mark it visited and enqueue it.  The state carried
through the scan is `(visited, queue)`. -/
def scanStep : List (Nat × Nat) → Nat → List Nat → List Nat →
    List Nat × List Nat
  | [], _, v, q => (v, q)
  | p :: rest, c, v, q =>
    if p.1 = c ∧ p.2 ∉ v then scanStep rest c (v ++ [p.2]) (q ++ [p.2])
    else scanStep rest c v q

/-- The BFS loop shared by `find_contaminated_nodes` and
`find_referenced_nodes`: dequeue, append to the output, scan for new
neighbours.  `candsOf c` lists the `(check, value)` pairs the Rust loop
examines for current index `c`. -/
def bfsAux (candsOf : Nat → List (Nat × Nat)) :
    Nat → List Nat → List Nat → List Nat → List Nat
  | 0, _, _, out => out
  | fuel + 1, queue, visited, out =>
    match queue with
    | [] => out
    | c :: q =>
      let vq := scanStep (candsOf c) c visited q
      bfsAux candsOf fuel vq.2 vq.1 (out ++ [c])

/-- `KnowledgeBase::find_contaminated_nodes`: forward BFS over the
reference table (`ref_table.range((c, MIN)..(c+1, MIN))`, keeping edges
with `from_idx == c` and enqueueing `to_idx`). -/
def find_contaminated_nodes (kb : KnowledgeBase) (start_idx : Nat) :
    List Nat :=
  bfsAux (fun c => (rangeFrom kb.ref_table c).map (fun kv => (kv.1.1, kv.1.2)))
    (kb.ref_table.length + 1) [start_idx] [start_idx] []

/-- `KnowledgeBase::find_referenced_nodes`: backward BFS over the
reference table (`ref_table.iter()`, keeping edges with `to_idx == c` and
enqueueing `from_idx`). -/
def find_referenced_nodes (kb : KnowledgeBase) (start_idx : Nat) :
    List Nat :=
  bfsAux (fun _ => kb.ref_table.map (fun kv => (kv.1.2, kv.1.1)))
    (kb.ref_table.length + 1) [start_idx] [start_idx] []

/-- `KnowledgeBase::node_count`. -/
def node_count (kb : KnowledgeBase) : Nat := kb.node_table.length

/-- `KnowledgeBase::edge_count`. -/
def edge_count (kb : KnowledgeBase) : Nat := kb.edge_table.length

/-! Concrete states used by the scenario claims. -/

/-- Divergence scenario, step 1: ingest a document with lines A, B, C. -/
def c2kb1 (v : Int) : KnowledgeBase :=
  (insert_markdown emptyKB "A\nB\nC" "f" 0 [] v "t").1

/-- Divergence scenario, step 2: ingest A, B, D under the same filename
at a (strictly higher) version `w`. -/
def c2kb2 (v w : Int) : KnowledgeBase :=
  (insert_markdown (c2kb1 v) "A\nB\nD" "f" 0 [] w "t").1

/-- End-to-end scenario: first ingestion of "line1\nline2" into "a.md". -/
def c4kb1 : KnowledgeBase :=
  (insert_markdown emptyKB "line1\nline2" "a.md" 0 [] 0 "t").1

/-- End-to-end scenario: identical second ingestion at version 1. -/
def c4kb2 : KnowledgeBase :=
  (insert_markdown c4kb1 "line1\nline2" "a.md" 0 [] 1 "t").1

/-- A reference/annotation node. -/
def refR : Node := ⟨"R", ""⟩

/-- Pre-existing-first-line scenario, step 1: ingest the single line A. -/
def c3kb1 : KnowledgeBase := (insert_markdown emptyKB "A" "f" 0 [] 0 "t").1

/-- Pre-existing-first-line scenario, step 2: ingest A, B under the same
filename with reference node `refR`; A already exists in the store. -/
def c3kb2 : KnowledgeBase := (insert_markdown c3kb1 "A\nB" "f" 0 [refR] 1 "t").1

/-- Ingesting a document whose two (non-empty) lines are identical: the
second line deduplicates onto the first, and the window loop records the
structural edge (1, 1) — a self-loop. -/
def kbLoop : KnowledgeBase := (insert_markdown emptyKB "x\nx" "f" 0 [] 0 "t").1

/-- BFS scenario: reference edge R→X (indices 0→1) and structural edge
X→Y (indices 1→2), no reference edge to Y. -/
def refScenario : KnowledgeBase :=
  { edge_table := [((1, 2), ⟨0, "t"⟩)], ref_table := [((0, 1), ⟨0, "t"⟩)],
    node_table := [⟨"R", ""⟩, ⟨"X", "f"⟩, ⟨"Y", "f"⟩] }

/-- Tie-break scenario: two structural edges from source 0 with equal
version 3 and destinations 5 and 7. -/
def tieKB : KnowledgeBase :=
  { edge_table := [((0, 5), ⟨3, "t"⟩), ((0, 7), ⟨3, "t"⟩)],
    ref_table := [], node_table := [] }

/-! Helper lemmas about the key order. -/

theorem keyLt_irrefl (a : Nat × Nat) : ¬ keyLt a a := by
  unfold keyLt; omega

theorem keyLt_trans {a b c : Nat × Nat} (h1 : keyLt a b) (h2 : keyLt b c) :
    keyLt a c := by
  unfold keyLt at *; omega

theorem keyLt_asymm {a b : Nat × Nat} (h : keyLt a b) : ¬ keyLt b a := by
  unfold keyLt at *; omega

theorem keyLt_of_not_lt_of_ne {a b : Nat × Nat} (h1 : ¬ keyLt a b)
    (h2 : a ≠ b) : keyLt b a := by
  unfold keyLt at *
  rcases a with ⟨a1, a2⟩
  rcases b with ⟨b1, b2⟩
  simp only [Prod.mk.injEq, not_and] at h2 ⊢
  by_cases he : a1 = b1
  · subst he
    have : a2 ≠ b2 := fun hc => h2 (by simp [hc])
    omega
  · omega

/-! Helper lemmas about deduplicating insertion and index lookup. -/

theorem insertDedup_of_mem {α : Type} [DecidableEq α] {l : List α} {a : α}
    (h : a ∈ l) : insertDedup l a = (l, false) := by
  unfold insertDedup; simp [h]

theorem insertDedup_of_not_mem {α : Type} [DecidableEq α] {l : List α} {a : α}
    (h : a ∉ l) : insertDedup l a = (l ++ [a], true) := by
  unfold insertDedup; simp [h]

theorem mem_insertDedup_self {α : Type} [DecidableEq α] (l : List α) (a : α) :
    a ∈ (insertDedup l a).1 := by
  unfold insertDedup
  by_cases h : a ∈ l <;> simp [h]

theorem insertDedup_append {α : Type} [DecidableEq α] (l : List α) (a : α) :
    ∃ s, (insertDedup l a).1 = l ++ s := by
  unfold insertDedup
  by_cases h : a ∈ l
  · exact ⟨[], by simp [h]⟩
  · exact ⟨[a], by simp [h]⟩

theorem idxOfD_append_of_mem {α : Type} [DecidableEq α] {l : List α} {a : α}
    (h : a ∈ l) (s : List α) : idxOfD (l ++ s) a = idxOfD l a := by
  induction l with
  | nil => simp at h
  | cons b l ih =>
    by_cases hba : b = a
    · simp [idxOfD, hba]
    · rcases List.mem_cons.mp h with h1 | h1
      · exact absurd h1.symm hba
      · simp [idxOfD, hba, ih h1]

theorem idxOfD_append_self {α : Type} [DecidableEq α] {l : List α} {a : α}
    (h : a ∉ l) : idxOfD (l ++ [a]) a = l.length := by
  induction l with
  | nil => simp [idxOfD]
  | cons b l ih =>
    have hba : b ≠ a := by
      intro e
      exact h (by simp [e])
    have hal : a ∉ l := fun hl => h (List.mem_cons_of_mem b hl)
    simp [idxOfD, hba, ih hal]

/-! Helper lemmas about the sorted edge tables. -/

theorem lookupEdge_mem {t : List ((Nat × Nat) × Edge)} {k : Nat × Nat}
    {e : Edge} (h : lookupEdge t k = some e) : (k, e) ∈ t := by
  induction t with
  | nil => simp [lookupEdge] at h
  | cons he rest ih =>
    rcases he with ⟨k', e'⟩
    by_cases hk : k = k'
    · unfold lookupEdge at h
      rw [if_pos hk] at h
      subst hk
      simp_all
    · unfold lookupEdge at h
      rw [if_neg hk] at h
      exact List.mem_cons_of_mem _ (ih h)

theorem mem_insertEdgeSorted {t : List ((Nat × Nat) × Edge)}
    {k : Nat × Nat} {e : Edge} {x : (Nat × Nat) × Edge}
    (h : x ∈ insertEdgeSorted t k e) : x = (k, e) ∨ x ∈ t := by
  induction t with
  | nil => simpa [insertEdgeSorted] using h
  | cons he rest ih =>
    rcases he with ⟨k', e'⟩
    unfold insertEdgeSorted at h
    by_cases h1 : keyLt k k'
    · rw [if_pos h1] at h
      rcases List.mem_cons.mp h with h | h
      · exact Or.inl h
      · exact Or.inr h
    · by_cases h2 : k = k'
      · rw [if_neg h1, if_pos h2] at h
        exact Or.inr h
      · rw [if_neg h1, if_neg h2] at h
        rcases List.mem_cons.mp h with h | h
        · exact Or.inr (by simp [h])
        · rcases ih h with h | h
          · exact Or.inl h
          · exact Or.inr (List.mem_cons_of_mem _ h)

theorem insertEdgeSorted_sorted {t : List ((Nat × Nat) × Edge)}
    {k : Nat × Nat} {e : Edge} (hs : TableSorted t) :
    TableSorted (insertEdgeSorted t k e) := by
  induction t with
  | nil => simp [insertEdgeSorted, TableSorted]
  | cons he rest ih =>
    rcases he with ⟨k', e'⟩
    rcases List.pairwise_cons.mp hs with ⟨hhead, htail⟩
    unfold insertEdgeSorted
    by_cases h1 : keyLt k k'
    · rw [if_pos h1]
      exact List.Pairwise.cons
        (fun y hy => by
          rcases List.mem_cons.mp hy with rfl | hy
          · exact h1
          · exact keyLt_trans h1 (hhead y hy))
        hs
    · by_cases h2 : k = k'
      · rw [if_neg h1, if_pos h2]
        exact hs
      · rw [if_neg h1, if_neg h2]
        exact List.Pairwise.cons
          (fun y hy => by
            rcases mem_insertEdgeSorted hy with rfl | hy
            · exact keyLt_of_not_lt_of_ne h1 h2
            · exact hhead y hy)
          (ih htail)

theorem insertEdgeSorted_of_lookup {t : List ((Nat × Nat) × Edge)}
    {k : Nat × Nat} {e : Edge} (e₂ : Edge) (hs : TableSorted t)
    (h : lookupEdge t k = some e) : insertEdgeSorted t k e₂ = t := by
  induction t with
  | nil => simp [lookupEdge] at h
  | cons he rest ih =>
    rcases he with ⟨k', e'⟩
    rcases List.pairwise_cons.mp hs with ⟨hhead, htail⟩
    by_cases hk : k = k'
    · subst hk
      unfold insertEdgeSorted
      rw [if_neg (keyLt_irrefl k), if_pos rfl]
    · unfold lookupEdge at h
      rw [if_neg hk] at h
      have hmem : (k, e) ∈ rest := lookupEdge_mem h
      have hlt : keyLt k' k := hhead _ hmem
      unfold insertEdgeSorted
      rw [if_neg (keyLt_asymm hlt), if_neg hk, ih htail h]

theorem lookupEdge_insertEdgeSorted_ne {t : List ((Nat × Nat) × Edge)}
    {k k' : Nat × Nat} {e' : Edge} (h : k ≠ k') :
    lookupEdge (insertEdgeSorted t k' e') k = lookupEdge t k := by
  induction t with
  | nil => simp [insertEdgeSorted, lookupEdge, h]
  | cons he rest ih =>
    rcases he with ⟨k0, e0⟩
    unfold insertEdgeSorted
    by_cases h1 : keyLt k' k0
    · rw [if_pos h1]
      unfold lookupEdge
      rw [if_neg h]
      rfl
    · by_cases h2 : k' = k0
      · rw [if_neg h1, if_pos h2]
      · rw [if_neg h1, if_neg h2]
        unfold lookupEdge
        by_cases h3 : k = k0
        · rw [if_pos h3, if_pos h3]
        · rw [if_neg h3, if_neg h3, ih]

theorem lookupEdge_insertEdgeSorted_pres {t : List ((Nat × Nat) × Edge)}
    {k k' : Nat × Nat} {e e' : Edge} (hs : TableSorted t)
    (h : lookupEdge t k = some e) :
    lookupEdge (insertEdgeSorted t k' e') k = some e := by
  by_cases hk : k' = k
  · subst hk
    rw [insertEdgeSorted_of_lookup e' hs h]
    exact h
  · rw [lookupEdge_insertEdgeSorted_ne (fun hc => hk hc.symm)]
    exact h

/-! Unfolding equations for the ingestion loops. -/

theorem processPairs_cons (v : Int) (tg : String) (from_node to_node : Node)
    (rest : List Node) (nt : List Node) (et : List ((Nat × Nat) × Edge))
    (news : List Nat) :
    processPairs v tg from_node (to_node :: rest) nt et news =
      processPairs v tg to_node rest (insertDedup nt to_node).1
        (insertEdgeSorted et
          (idxOfD (insertDedup nt to_node).1 from_node,
            idxOfD (insertDedup nt to_node).1 to_node) ⟨v, tg⟩)
        (if (insertDedup nt to_node).2 then
          news ++ [idxOfD (insertDedup nt to_node).1 to_node]
        else news) := rfl

theorem processRefs_cons (v : Int) (tg : String) (news : List Nat)
    (r : Node) (rest : List Node) (nt : List Node)
    (rt : List ((Nat × Nat) × Edge)) :
    processRefs v tg news (r :: rest) nt rt =
      processRefs v tg news rest (insertDedup nt r).1
        (news.foldl
          (fun acc to_idx =>
            insertEdgeSorted acc (idxOfD (insertDedup nt r).1 r, to_idx) ⟨v, tg⟩)
          rt) := rfl

/-! Preservation lemmas: the ingestion loops keep the edge tables sorted,
never change the value stored at an existing key, and only append to the
node table. -/

theorem processPairs_preserv (v : Int) (tg : String) (rest : List Node) :
    ∀ (from_node : Node) (nt : List Node) (et : List ((Nat × Nat) × Edge))
      (news : List Nat), TableSorted et →
      TableSorted (processPairs v tg from_node rest nt et news).2.1 ∧
      (∀ k e, lookupEdge et k = some e →
        lookupEdge (processPairs v tg from_node rest nt et news).2.1 k = some e) := by
  induction rest with
  | nil => exact fun from_node nt et news hs => ⟨hs, fun k e h => h⟩
  | cons to_node rest ih =>
    intro from_node nt et news hs
    rw [processPairs_cons]
    rcases ih to_node (insertDedup nt to_node).1
      (insertEdgeSorted et
        (idxOfD (insertDedup nt to_node).1 from_node,
          idxOfD (insertDedup nt to_node).1 to_node) ⟨v, tg⟩)
      (if (insertDedup nt to_node).2 then
        news ++ [idxOfD (insertDedup nt to_node).1 to_node]
      else news)
      (insertEdgeSorted_sorted hs) with ⟨ha, hb⟩
    exact ⟨ha, fun k e h => hb k e (lookupEdge_insertEdgeSorted_pres hs h)⟩

theorem processPairs_nodes (v : Int) (tg : String) (rest : List Node) :
    ∀ (from_node : Node) (nt : List Node) (et : List ((Nat × Nat) × Edge))
      (news : List Nat),
      ∃ s, (processPairs v tg from_node rest nt et news).1 = nt ++ s := by
  induction rest with
  | nil =>
    intro from_node nt et news
    exact ⟨[], by simp [processPairs]⟩
  | cons to_node rest ih =>
    intro from_node nt et news
    rw [processPairs_cons]
    obtain ⟨s1, hs1⟩ := insertDedup_append nt to_node
    obtain ⟨s2, hs2⟩ := ih to_node (insertDedup nt to_node).1
      (insertEdgeSorted et
        (idxOfD (insertDedup nt to_node).1 from_node,
          idxOfD (insertDedup nt to_node).1 to_node) ⟨v, tg⟩)
      (if (insertDedup nt to_node).2 then
        news ++ [idxOfD (insertDedup nt to_node).1 to_node]
      else news)
    exact ⟨s1 ++ s2, by rw [hs2, hs1, List.append_assoc]⟩

theorem foldl_insertRef_preserv (v : Int) (tg : String) (fi : Nat)
    (news : List Nat) :
    ∀ (rt : List ((Nat × Nat) × Edge)), TableSorted rt →
      TableSorted (news.foldl
        (fun acc to_idx => insertEdgeSorted acc (fi, to_idx) ⟨v, tg⟩) rt) ∧
      (∀ k e, lookupEdge rt k = some e →
        lookupEdge (news.foldl
          (fun acc to_idx => insertEdgeSorted acc (fi, to_idx) ⟨v, tg⟩) rt) k =
          some e) := by
  induction news with
  | nil => exact fun rt hs => ⟨hs, fun k e h => h⟩
  | cons ti news ih =>
    intro rt hs
    simp only [List.foldl_cons]
    rcases ih (insertEdgeSorted rt (fi, ti) ⟨v, tg⟩)
      (insertEdgeSorted_sorted hs) with ⟨ha, hb⟩
    exact ⟨ha, fun k e h => hb k e (lookupEdge_insertEdgeSorted_pres hs h)⟩

theorem processRefs_preserv (v : Int) (tg : String) (news : List Nat)
    (refs : List Node) :
    ∀ (nt : List Node) (rt : List ((Nat × Nat) × Edge)), TableSorted rt →
      TableSorted (processRefs v tg news refs nt rt).2 ∧
      (∀ k e, lookupEdge rt k = some e →
        lookupEdge (processRefs v tg news refs nt rt).2 k = some e) := by
  induction refs with
  | nil => exact fun nt rt hs => ⟨hs, fun k e h => h⟩
  | cons r rest ih =>
    intro nt rt hs
    rw [processRefs_cons]
    rcases foldl_insertRef_preserv v tg (idxOfD (insertDedup nt r).1 r) news rt hs
      with ⟨ha, hb⟩
    rcases ih (insertDedup nt r).1
      (news.foldl
        (fun acc to_idx =>
          insertEdgeSorted acc (idxOfD (insertDedup nt r).1 r, to_idx) ⟨v, tg⟩)
        rt) ha with ⟨hc, hd⟩
    exact ⟨hc, fun k e h => hd k e (hb k e h)⟩

theorem processRefs_nodes (v : Int) (tg : String) (news : List Nat)
    (refs : List Node) :
    ∀ (nt : List Node) (rt : List ((Nat × Nat) × Edge)),
      ∃ s, (processRefs v tg news refs nt rt).1 = nt ++ s := by
  induction refs with
  | nil =>
    intro nt rt
    exact ⟨[], by simp [processRefs]⟩
  | cons r rest ih =>
    intro nt rt
    rw [processRefs_cons]
    obtain ⟨s1, hs1⟩ := insertDedup_append nt r
    obtain ⟨s2, hs2⟩ := ih (insertDedup nt r).1
      (news.foldl
        (fun acc to_idx =>
          insertEdgeSorted acc (idxOfD (insertDedup nt r).1 r, to_idx) ⟨v, tg⟩)
        rt)
    exact ⟨s1 ++ s2, by rw [hs2, hs1, List.append_assoc]⟩

theorem insertMarkdownCore_preserv (kb : KnowledgeBase) (md fn : String)
    (p : Nat) (refs : List Node) (v : Int) (tg : String)
    (hse : TableSorted kb.edge_table) (hsr : TableSorted kb.ref_table) :
    TableSorted (insertMarkdownCore kb md fn p refs v tg).1.edge_table ∧
    TableSorted (insertMarkdownCore kb md fn p refs v tg).1.ref_table ∧
    (∀ k e, lookupEdge kb.edge_table k = some e →
      lookupEdge (insertMarkdownCore kb md fn p refs v tg).1.edge_table k = some e) ∧
    (∀ k e, lookupEdge kb.ref_table k = some e →
      lookupEdge (insertMarkdownCore kb md fn p refs v tg).1.ref_table k = some e) ∧
    ∃ s, (insertMarkdownCore kb md fn p refs v tg).1.node_table =
      kb.node_table ++ s := by
  cases hseg : segmentUnits md fn with
  | nil =>
    simp only [insertMarkdownCore, hseg]
    exact ⟨insertEdgeSorted_sorted hse, hsr,
      fun k e h => lookupEdge_insertEdgeSorted_pres hse h,
      fun k e h => h,
      insertDedup_append kb.node_table _⟩
  | cons first units =>
    simp only [insertMarkdownCore, hseg]
    set fileN : Node := ⟨"FILE: " ++ fn, fn⟩ with hfileN
    set nt1 := (insertDedup kb.node_table fileN).1 with hnt1
    set fidx := idxOfD nt1 fileN with hfidx
    set et1 := insertEdgeSorted kb.edge_table (p, fidx) ⟨v, tg⟩ with het1
    set nt2 := (insertDedup nt1 first).1 with hnt2
    set fI := idxOfD nt2 first with hfI
    set et2 := insertEdgeSorted et1 (fidx, fI) ⟨v, tg⟩ with het2
    have hset1 : TableSorted et1 := insertEdgeSorted_sorted hse
    have hset2 : TableSorted et2 := insertEdgeSorted_sorted hset1
    rcases processPairs_preserv v tg units first nt2 et2 [fI] hset2 with ⟨hA, hB⟩
    rcases processRefs_preserv v tg
      (processPairs v tg first units nt2 et2 [fI]).2.2 refs
      (processPairs v tg first units nt2 et2 [fI]).1 kb.ref_table hsr
      with ⟨hC, hD⟩
    refine ⟨hA, hC, ?_, ?_, ?_⟩
    · exact fun k e h =>
        hB k e (lookupEdge_insertEdgeSorted_pres hset1
          (lookupEdge_insertEdgeSorted_pres hse h))
    · exact fun k e h => hD k e h
    · obtain ⟨s0, h0⟩ := insertDedup_append kb.node_table fileN
      obtain ⟨s1, h1⟩ := insertDedup_append nt1 first
      obtain ⟨s2, h2⟩ := processPairs_nodes v tg units first nt2 et2 [fI]
      obtain ⟨s3, h3⟩ := processRefs_nodes v tg
        (processPairs v tg first units nt2 et2 [fI]).2.2 refs
        (processPairs v tg first units nt2 et2 [fI]).1 kb.ref_table
      refine ⟨(s0 ++ s1) ++ (s2 ++ s3), ?_⟩
      rw [h3, h2]
      rw [hnt2, h1, hnt1, h0]
      simp [List.append_assoc]

/-- C5: edge insertion is first-write-wins and append-only.  For every
(sorted, i.e. representable as a `BTreeMap`) state: re-insertion at an
existing (source, destination) key with any version/tag leaves the table
entirely unchanged; `insert_markdown` never changes the edge stored at an
existing key of either table and only appends to the node store; and the
other mutating operations (`insert_node`, `insert_directory`) leave both
edge tables untouched and only append to the node store. -/
theorem C5_edges_first_write_wins_append_only (kb : KnowledgeBase)
    (md fn : String) (p : Nat) (refs : List Node) (v : Int) (tg : String)
    (c f d : String)
    (hse : TableSorted kb.edge_table) (hsr : TableSorted kb.ref_table) :
    (∀ (t : List ((Nat × Nat) × Edge)) (k : Nat × Nat) (e e₂ : Edge),
      TableSorted t → lookupEdge t k = some e → insertEdgeSorted t k e₂ = t) ∧
    (∀ k e, lookupEdge kb.edge_table k = some e →
      lookupEdge (insert_markdown kb md fn p refs v tg).1.edge_table k = some e) ∧
    (∀ k e, lookupEdge kb.ref_table k = some e →
      lookupEdge (insert_markdown kb md fn p refs v tg).1.ref_table k = some e) ∧
    (∃ s, (insert_markdown kb md fn p refs v tg).1.node_table = kb.node_table ++ s) ∧
    ((insert_node kb c f).1.edge_table = kb.edge_table ∧
      (insert_node kb c f).1.ref_table = kb.ref_table ∧
      ∃ s, (insert_node kb c f).1.node_table = kb.node_table ++ s) ∧
    ((insert_directory kb d).1.edge_table = kb.edge_table ∧
      (insert_directory kb d).1.ref_table = kb.ref_table ∧
      ∃ s, (insert_directory kb d).1.node_table = kb.node_table ++ s) := by
  rcases insertMarkdownCore_preserv kb md fn p refs v tg hse hsr
    with ⟨-, -, hE, hR, hN⟩
  refine ⟨fun t k e e₂ hs h => insertEdgeSorted_of_lookup e₂ hs h,
    hE, hR, hN, ⟨rfl, rfl, ?_⟩, ⟨rfl, rfl, ?_⟩⟩
  · exact insertDedup_append kb.node_table _
  · exact insertDedup_append kb.node_table _

/-- Witness for C5 at a concrete state: the edge (1, 2) ingested at
version 0 keeps version 0 after a later ingestion at version 1 touches the
same key. -/
theorem C5_witness :
    TableSorted (c2kb1 0).edge_table ∧ TableSorted (c2kb1 0).ref_table ∧
    lookupEdge (c2kb1 0).edge_table (1, 2) = some ⟨0, "t"⟩ ∧
    lookupEdge (insert_markdown (c2kb1 0) "A\nB\nD" "f" 0 [] 1 "t").1.edge_table
      (1, 2) = some ⟨0, "t"⟩ :=
  ⟨by decide, by decide, by decide,
    (C5_edges_first_write_wins_append_only (c2kb1 0) "A\nB\nD" "f" 0 [] 1 "t"
      "c" "f" "d" (by decide) (by decide)).2.1 (1, 2) ⟨0, "t"⟩ (by decide)⟩

/-- C6: node insertion is idempotent with monotonic 0-based index
assignment: re-inserting an existing (content, filename) pair returns its
first-assigned index and changes nothing; a genuinely new node is
appended and receives index equal to the previous node count (so the n-th
distinct node ever inserted gets index n-1); the count grows by at most
one per insertion, and existing indices are never reused or renumbered. -/
theorem C6_insert_node_idempotent_monotonic (kb : KnowledgeBase)
    (c f : String) :
    (insert_node (insert_node kb c f).1 c f).2 = (insert_node kb c f).2 ∧
    (insert_node (insert_node kb c f).1 c f).1.node_table =
      (insert_node kb c f).1.node_table ∧
    (Node.mk c f ∈ kb.node_table →
      (insert_node kb c f).2 = idxOfD kb.node_table ⟨c, f⟩ ∧
      (insert_node kb c f).1.node_table = kb.node_table) ∧
    (Node.mk c f ∉ kb.node_table →
      (insert_node kb c f).2 = kb.node_table.length ∧
      (insert_node kb c f).1.node_table = kb.node_table ++ [⟨c, f⟩]) ∧
    (insert_node kb c f).1.node_table.length ≤ kb.node_table.length + 1 := by
  refine ⟨?_, ?_, fun hm => ?_, fun hm => ?_, ?_⟩
  · by_cases hm : Node.mk c f ∈ kb.node_table
    · simp [insert_node, insertDedup_of_mem hm]
    · have hmem2 : Node.mk c f ∈ kb.node_table ++ [(⟨c, f⟩ : Node)] := by simp
      simp [insert_node, insertDedup_of_not_mem hm, insertDedup_of_mem hmem2]
  · by_cases hm : Node.mk c f ∈ kb.node_table
    · simp [insert_node, insertDedup_of_mem hm]
    · have hmem2 : Node.mk c f ∈ kb.node_table ++ [(⟨c, f⟩ : Node)] := by simp
      simp [insert_node, insertDedup_of_not_mem hm, insertDedup_of_mem hmem2]
  · exact ⟨by simp [insert_node, insertDedup_of_mem hm],
      by simp [insert_node, insertDedup_of_mem hm]⟩
  · exact ⟨by simp [insert_node, insertDedup_of_not_mem hm, idxOfD_append_self hm],
      by simp [insert_node, insertDedup_of_not_mem hm]⟩
  · by_cases hm : Node.mk c f ∈ kb.node_table
    · simp [insert_node, insertDedup_of_mem hm]
    · simp [insert_node, insertDedup_of_not_mem hm]

/-- Witness for C6: inserting the pair ("a", "f") twice into the empty
store yields index 0 both times and a single-entry node table. -/
theorem C6_witness :
    (insert_node (insert_node emptyKB "a" "f").1 "a" "f").2 =
      (insert_node emptyKB "a" "f").2 ∧
    (Node.mk "a" "f" ∉ emptyKB.node_table) ∧
    (insert_node emptyKB "a" "f").2 = emptyKB.node_table.length ∧
    (insert_node emptyKB "a" "f").1.node_table =
      emptyKB.node_table ++ [⟨"a", "f"⟩] :=
  ⟨(C6_insert_node_idempotent_monotonic emptyKB "a" "f").1, by decide,
    ((C6_insert_node_idempotent_monotonic emptyKB "a" "f").2.2.2.1 (by decide)).1,
    ((C6_insert_node_idempotent_monotonic emptyKB "a" "f").2.2.2.1 (by decide)).2⟩

/-! Lemmas about the latest-path traversal. -/

theorem pickNext_cons (kv : (Nat × Nat) × Edge)
    (l : List ((Nat × Nat) × Edge)) :
    pickNext (kv :: l) = l.foldl pickStep (some kv) := rfl

theorem pickFold_spec (l : List ((Nat × Nat) × Edge)) :
    ∀ (b : (Nat × Nat) × Edge),
      List.Pairwise (fun x y => x.1.2 < y.1.2) (b :: l) →
      ∃ r, l.foldl pickStep (some b) = some r ∧ r ∈ b :: l ∧
        ∀ x ∈ b :: l, x.2.version ≤ r.2.version ∧
          (x.2.version = r.2.version → x.1.2 ≤ r.1.2) := by
  induction l with
  | nil =>
    intro b _
    refine ⟨b, rfl, List.mem_cons_self b [], fun x hx => ?_⟩
    rcases List.mem_cons.mp hx with rfl | hx
    · exact ⟨le_refl _, fun _ => le_refl _⟩
    · simp at hx
  | cons a l ih =>
    intro b hp
    rw [List.foldl_cons]
    rcases List.pairwise_cons.mp hp with ⟨hb, hp'⟩
    by_cases hv : b.2.version ≤ a.2.version
    · have hstep : pickStep (some b) a = some a := by simp [pickStep, hv]
      rw [hstep]
      rcases ih a hp' with ⟨r, h1, h2, h3⟩
      refine ⟨r, h1, List.mem_cons_of_mem b h2, fun x hx => ?_⟩
      rcases List.mem_cons.mp hx with rfl | hx
      · have ha := h3 a (List.mem_cons_self a l)
        refine ⟨le_trans hv ha.1, fun he => ?_⟩
        have hva : a.2.version = r.2.version := le_antisymm ha.1 (he ▸ hv)
        have hd1 : a.1.2 ≤ r.1.2 := ha.2 hva
        have hd2 : x.1.2 < a.1.2 := hb a (List.mem_cons_self a l)
        omega
      · exact h3 x hx
    · have hstep : pickStep (some b) a = some b := by simp [pickStep, hv]
      rw [hstep]
      have hp2 : List.Pairwise (fun x y => x.1.2 < y.1.2) (b :: l) := by
        rcases List.pairwise_cons.mp hp' with ⟨ha2, hl⟩
        exact List.Pairwise.cons (fun y hy => hb y (List.mem_cons_of_mem a hy)) hl
      rcases ih b hp2 with ⟨r, h1, h2, h3⟩
      refine ⟨r, h1, ?_, fun x hx => ?_⟩
      · rcases List.mem_cons.mp h2 with rfl | h2
        · exact List.mem_cons_self r _
        · exact List.mem_cons_of_mem _ (List.mem_cons_of_mem a h2)
      · rcases List.mem_cons.mp hx with rfl | hx
        · exact h3 x (List.mem_cons_self x l)
        · rcases List.mem_cons.mp hx with rfl | hx2
          · have hbr := h3 b (List.mem_cons_self b l)
            push_neg at hv
            refine ⟨le_trans (le_of_lt hv) hbr.1, fun he => ?_⟩
            have hc : b.2.version ≤ r.2.version := hbr.1
            omega
          · exact h3 x (List.mem_cons_of_mem b hx2)

theorem pickNext_spec {l : List ((Nat × Nat) × Edge)}
    (hp : List.Pairwise (fun x y => x.1.2 < y.1.2) l)
    {kv : (Nat × Nat) × Edge} (h : pickNext l = some kv) :
    kv ∈ l ∧ ∀ x ∈ l, x.2.version ≤ kv.2.version ∧
      (x.2.version = kv.2.version → x.1.2 ≤ kv.1.2) := by
  cases l with
  | nil => simp [pickNext] at h
  | cons b l =>
    rcases pickFold_spec l b hp with ⟨r, h1, h2, h3⟩
    rw [pickNext_cons, h1] at h
    obtain rfl : r = kv := by injection h
    exact ⟨h2, h3⟩

theorem mem_rangeFrom {t : List ((Nat × Nat) × Edge)} {c : Nat}
    {x : (Nat × Nat) × Edge} : x ∈ rangeFrom t c ↔ x ∈ t ∧ x.1.1 = c := by
  simp [rangeFrom, List.mem_filter]

theorem rangeFrom_pairwise {t : List ((Nat × Nat) × Edge)} {c : Nat}
    (hs : TableSorted t) :
    List.Pairwise (fun x y => x.1.2 < y.1.2) (rangeFrom t c) := by
  have h1 : List.Pairwise (fun x y => keyLt x.1 y.1) (rangeFrom t c) :=
    List.Pairwise.sublist (List.filter_sublist t) hs
  refine h1.imp_of_mem ?_
  intro a b ha hb hab
  have hac : a.1.1 = c := (mem_rangeFrom.mp ha).2
  have hbc : b.1.1 = c := (mem_rangeFrom.mp hb).2
  unfold keyLt at hab
  omega

theorem nextEdgeFrom_spec {t : List ((Nat × Nat) × Edge)} {c : Nat}
    {kv : (Nat × Nat) × Edge} (hs : TableSorted t)
    (h : nextEdgeFrom t c = some kv) :
    kv.1.1 = c ∧ kv ∈ t ∧
    ∀ d' e', ((c, d'), e') ∈ t → e'.version ≤ kv.2.version ∧
      (e'.version = kv.2.version → d' ≤ kv.1.2) := by
  rcases pickNext_spec (rangeFrom_pairwise hs) h with ⟨h1, h2⟩
  rcases mem_rangeFrom.mp h1 with ⟨hmem, hc⟩
  refine ⟨hc, hmem, fun d' e' hde => ?_⟩
  exact h2 _ (mem_rangeFrom.mpr ⟨hde, rfl⟩)

theorem traverseAux_succ (t : List ((Nat × Nat) × Edge)) (fuel c : Nat) :
    traverseAux t (fuel + 1) c =
      match nextEdgeFrom t c with
      | none => some [c]
      | some kv => (traverseAux t fuel kv.1.2).map (fun p => c :: p) := rfl

/-- C1: at each step, `traverse_latest_path` selects, among the outgoing
structural edges of the current node, one that attains the maximum
version, and among edges tied at that maximum the one with the highest
destination index (`max_by_key` keeps the last of the ascending
destination scan); the traversal loop is exactly the iteration of this
selection; and on the concrete two-edge tie state with destinations 5 and
7 the traversal from 0 chooses 7. -/
theorem C1_traverse_max_version_max_dest :
    (∀ (t : List ((Nat × Nat) × Edge)) (c : Nat) (kv : (Nat × Nat) × Edge),
      TableSorted t → nextEdgeFrom t c = some kv →
      kv.1.1 = c ∧ kv ∈ t ∧
      ∀ d' e', ((c, d'), e') ∈ t → e'.version ≤ kv.2.version ∧
        (e'.version = kv.2.version → d' ≤ kv.1.2)) ∧
    (∀ (t : List ((Nat × Nat) × Edge)) (fuel c : Nat),
      traverseAux t (fuel + 1) c =
        match nextEdgeFrom t c with
        | none => some [c]
        | some kv => (traverseAux t fuel kv.1.2).map (fun p => c :: p)) ∧
    traverse_latest_path tieKB 2 0 = some [0, 7] :=
  ⟨fun _ _ _ hs h => nextEdgeFrom_spec hs h,
   fun t fuel c => traverseAux_succ t fuel c,
   by decide⟩

/-- Witness for C1 on the tie state: the hypotheses of the selection
property hold concretely, and every structural edge out of 0 has version
at most 3 with destination at most 7. -/
theorem C1_witness :
    TableSorted tieKB.edge_table ∧
    nextEdgeFrom tieKB.edge_table 0 = some ((0, 7), ⟨3, "t"⟩) ∧
    (∀ d' e', ((0, d'), e') ∈ tieKB.edge_table →
      e'.version ≤ (3 : Int) ∧ (e'.version = 3 → d' ≤ 7)) :=
  ⟨by decide, by decide,
    fun d' e' h =>
      (C1_traverse_max_version_max_dest.1 tieKB.edge_table 0
        ((0, 7), ⟨3, "t"⟩) (by decide) (by decide)).2.2 d' e' h⟩

/-- C2: after ingesting A,B,C at version `v` and then A,B,D under the same
filename at a strictly higher version `w` (empty store, node indices
A=1, B=2, C=3, D=4), the structural edges A→B, B→C and B→D are all
present simultaneously — B→C still at version `v`, B→D at `w` — and the
latest-path traversal from A returns exactly [A, B, D]. -/
theorem C2_divergence_preserved (v w : Int) (hvw : v < w) :
    lookupEdge (c2kb2 v w).edge_table (1, 2) = some ⟨v, "t"⟩ ∧
    lookupEdge (c2kb2 v w).edge_table (2, 3) = some ⟨v, "t"⟩ ∧
    lookupEdge (c2kb2 v w).edge_table (2, 4) = some ⟨w, "t"⟩ ∧
    idxOfD (c2kb2 v w).node_table ⟨"A", "f"⟩ = 1 ∧
    idxOfD (c2kb2 v w).node_table ⟨"B", "f"⟩ = 2 ∧
    idxOfD (c2kb2 v w).node_table ⟨"C", "f"⟩ = 3 ∧
    idxOfD (c2kb2 v w).node_table ⟨"D", "f"⟩ = 4 ∧
    traverse_latest_path (c2kb2 v w) 5 1 = some [1, 2, 4] := by
  have htab : (c2kb2 v w).edge_table =
    [((0, 0), ⟨v, "t"⟩), ((0, 1), ⟨v, "t"⟩), ((1, 2), ⟨v, "t"⟩),
      ((2, 3), ⟨v, "t"⟩), ((2, 4), ⟨w, "t"⟩)] := rfl
  have h1 : nextEdgeFrom (c2kb2 v w).edge_table 1 = some ((1, 2), ⟨v, "t"⟩) := by
    rw [htab]; rfl
  have h2 : nextEdgeFrom (c2kb2 v w).edge_table 2 = some ((2, 4), ⟨w, "t"⟩) := by
    rw [htab]
    show pickNext [((2, 3), ⟨v, "t"⟩), ((2, 4), ⟨w, "t"⟩)] = some ((2, 4), ⟨w, "t"⟩)
    show (if v ≤ w then some ((2, 4), (⟨w, "t"⟩ : Edge))
      else some ((2, 3), ⟨v, "t"⟩)) = some ((2, 4), ⟨w, "t"⟩)
    rw [if_pos (le_of_lt hvw)]
  have h3 : nextEdgeFrom (c2kb2 v w).edge_table 4 = none := by
    rw [htab]; rfl
  have s3 : traverseAux (c2kb2 v w).edge_table 3 4 = some [4] := by
    rw [show (3 : Nat) = 2 + 1 from rfl, traverseAux_succ, h3]
  have s2 : traverseAux (c2kb2 v w).edge_table 4 2 = some [2, 4] := by
    rw [show (4 : Nat) = 3 + 1 from rfl, traverseAux_succ, h2]
    show (traverseAux (c2kb2 v w).edge_table 3 4).map (fun p => 2 :: p) =
      some [2, 4]
    rw [s3]
    rfl
  have s1 : traverseAux (c2kb2 v w).edge_table 5 1 = some [1, 2, 4] := by
    rw [show (5 : Nat) = 4 + 1 from rfl, traverseAux_succ, h1]
    show (traverseAux (c2kb2 v w).edge_table 4 2).map (fun p => 1 :: p) =
      some [1, 2, 4]
    rw [s2]
    rfl
  refine ⟨by rw [htab]; rfl, by rw [htab]; rfl, by rw [htab]; rfl,
    rfl, rfl, rfl, rfl, s1⟩

/-- Witness for C2 at versions 0 < 1. -/
theorem C2_witness :
    lookupEdge (c2kb2 0 1).edge_table (1, 2) = some ⟨0, "t"⟩ ∧
    lookupEdge (c2kb2 0 1).edge_table (2, 3) = some ⟨0, "t"⟩ ∧
    lookupEdge (c2kb2 0 1).edge_table (2, 4) = some ⟨1, "t"⟩ ∧
    traverse_latest_path (c2kb2 0 1) 5 1 = some [1, 2, 4] :=
  ⟨(C2_divergence_preserved 0 1 (by decide)).1,
    (C2_divergence_preserved 0 1 (by decide)).2.1,
    (C2_divergence_preserved 0 1 (by decide)).2.2.1,
    (C2_divergence_preserved 0 1 (by decide)).2.2.2.2.2.2.2⟩

/-! Lemmas about the shared BFS loop. -/

theorem bfsAux_zero (co : Nat → List (Nat × Nat)) (q v out : List Nat) :
    bfsAux co 0 q v out = out := rfl

theorem bfsAux_succ_nil (co : Nat → List (Nat × Nat)) (fuel : Nat)
    (v out : List Nat) : bfsAux co (fuel + 1) [] v out = out := rfl

theorem bfsAux_succ_cons (co : Nat → List (Nat × Nat)) (fuel c : Nat)
    (q v out : List Nat) :
    bfsAux co (fuel + 1) (c :: q) v out =
      bfsAux co fuel (scanStep (co c) c v q).2 (scanStep (co c) c v q).1
        (out ++ [c]) := rfl

theorem bfsAux_nil_queue (co : Nat → List (Nat × Nat)) :
    ∀ (fuel : Nat) (v out : List Nat), bfsAux co fuel [] v out = out
  | 0, _, _ => rfl
  | _ + 1, _, _ => rfl

theorem scanStep_cons (p : Nat × Nat) (rest : List (Nat × Nat)) (c : Nat)
    (v q : List Nat) :
    scanStep (p :: rest) c v q =
      if p.1 = c ∧ p.2 ∉ v then scanStep rest c (v ++ [p.2]) (q ++ [p.2])
      else scanStep rest c v q := rfl

theorem scanStep_spec (c : Nat) (cands : List (Nat × Nat)) :
    ∀ (v q : List Nat), ∃ ns,
      scanStep cands c v q = (v ++ ns, q ++ ns) ∧ ns.Nodup ∧
      ∀ x ∈ ns, x ∉ v := by
  induction cands with
  | nil =>
    intro v q
    exact ⟨[], by simp [scanStep], List.nodup_nil, by simp⟩
  | cons p rest ih =>
    intro v q
    rw [scanStep_cons]
    by_cases hc : p.1 = c ∧ p.2 ∉ v
    · rw [if_pos hc]
      obtain ⟨ns, h1, h2, h3⟩ := ih (v ++ [p.2]) (q ++ [p.2])
      refine ⟨p.2 :: ns, ?_, ?_, ?_⟩
      · rw [h1]
        simp
      · exact List.nodup_cons.mpr ⟨fun hx => (h3 p.2 hx) (by simp), h2⟩
      · intro x hx
        rcases List.mem_cons.mp hx with rfl | hx
        · exact hc.2
        · exact fun hv => (h3 x hx) (List.mem_append_left _ hv)
    · rw [if_neg hc]
      exact ih v q

theorem scanStep_nil_of_none (cands : List (Nat × Nat)) (c : Nat)
    (v q : List Nat) (h : ∀ p ∈ cands, ¬(p.1 = c ∧ p.2 ∉ v)) :
    scanStep cands c v q = (v, q) := by
  induction cands with
  | nil => rfl
  | cons p rest ih =>
    rw [scanStep_cons, if_neg (h p (List.mem_cons_self p rest))]
    exact ih fun p' hp' => h p' (List.mem_cons_of_mem p hp')

theorem bfsAux_out (co : Nat → List (Nat × Nat)) :
    ∀ (fuel : Nat) (q v out : List Nat),
      ∃ s, bfsAux co fuel q v out = out ++ s := by
  intro fuel
  induction fuel with
  | zero =>
    intro q v out
    exact ⟨[], by simp [bfsAux_zero]⟩
  | succ fuel ih =>
    intro q v out
    cases q with
    | nil => exact ⟨[], by simp [bfsAux_succ_nil]⟩
    | cons c q =>
      obtain ⟨s, hs⟩ :=
        ih (scanStep (co c) c v q).2 (scanStep (co c) c v q).1 (out ++ [c])
      exact ⟨c :: s, by rw [bfsAux_succ_cons, hs]; simp⟩

theorem bfsAux_head (co : Nat → List (Nat × Nat)) (fuel s : Nat)
    (v : List Nat) : (bfsAux co (fuel + 1) [s] v []).head? = some s := by
  rw [bfsAux_succ_cons]
  obtain ⟨t, ht⟩ :=
    bfsAux_out co fuel (scanStep (co s) s v []).2 (scanStep (co s) s v []).1
      ([] ++ [s])
  rw [ht]
  simp

theorem bfsAux_nodup (co : Nat → List (Nat × Nat)) :
    ∀ (fuel : Nat) (q v out : List Nat),
      (out ++ q).Nodup → (∀ x ∈ out ++ q, x ∈ v) →
      (bfsAux co fuel q v out).Nodup := by
  intro fuel
  induction fuel with
  | zero =>
    intro q v out hnd _
    rw [bfsAux_zero]
    exact (List.nodup_append.mp hnd).1
  | succ fuel ih =>
    intro q v out hnd hv
    cases q with
    | nil =>
      rw [bfsAux_succ_nil]
      simpa using hnd
    | cons c q =>
      rw [bfsAux_succ_cons]
      obtain ⟨ns, h1, h2, h3⟩ := scanStep_spec c (co c) v q
      rw [h1]
      show ((bfsAux co fuel (q ++ ns) (v ++ ns) (out ++ [c]))).Nodup
      have hrearr : (out ++ [c]) ++ (q ++ ns) = (out ++ c :: q) ++ ns := by
        simp
      apply ih
      · rw [hrearr]
        refine List.nodup_append.mpr ⟨hnd, h2, ?_⟩
        intro a ha hans
        exact h3 a hans (hv a ha)
      · intro x hx
        rcases List.mem_append.mp hx with hx1 | hx2
        · have hxo : x ∈ out ++ c :: q := by
            rcases List.mem_append.mp hx1 with hh | hh
            · exact List.mem_append_left _ hh
            · simp only [List.mem_singleton] at hh
              subst hh
              exact List.mem_append_right _ (List.mem_cons_self _ _)
          exact List.mem_append_left ns (hv x hxo)
        · rcases List.mem_append.mp hx2 with hh | hh
          · exact List.mem_append_left ns
              (hv x (List.mem_append_right _ (List.mem_cons_of_mem c hh)))
          · exact List.mem_append_right v hh

theorem find_contaminated_head (kb : KnowledgeBase) (s : Nat) :
    (find_contaminated_nodes kb s).head? = some s :=
  bfsAux_head _ _ s _

theorem find_referenced_head (kb : KnowledgeBase) (s : Nat) :
    (find_referenced_nodes kb s).head? = some s :=
  bfsAux_head _ _ s _

theorem find_contaminated_nodup (kb : KnowledgeBase) (s : Nat) :
    (find_contaminated_nodes kb s).Nodup := by
  apply bfsAux_nodup
  · simp
  · intro x hx
    simpa using hx

theorem find_referenced_nodup (kb : KnowledgeBase) (s : Nat) :
    (find_referenced_nodes kb s).Nodup := by
  apply bfsAux_nodup
  · simp
  · intro x hx
    simpa using hx

theorem find_contaminated_no_edges (kb : KnowledgeBase) (i : Nat)
    (h : rangeFrom kb.ref_table i = []) :
    find_contaminated_nodes kb i = [i] := by
  unfold find_contaminated_nodes
  rw [bfsAux_succ_cons, h]
  show bfsAux _ kb.ref_table.length [] [i] ([] ++ [i]) = [i]
  rw [bfsAux_nil_queue]
  rfl

theorem find_referenced_no_edges (kb : KnowledgeBase) (i : Nat)
    (h : ∀ kv ∈ kb.ref_table, kv.1.2 ≠ i) :
    find_referenced_nodes kb i = [i] := by
  unfold find_referenced_nodes
  rw [bfsAux_succ_cons,
    scanStep_nil_of_none (kb.ref_table.map fun kv => (kv.1.2, kv.1.1)) i [i] []
      (by
        intro p hp
        obtain ⟨kv, hkv, rfl⟩ := List.mem_map.mp hp
        exact fun hc => h kv hkv hc.1)]
  show bfsAux _ kb.ref_table.length [] [i] ([] ++ [i]) = [i]
  rw [bfsAux_nil_queue]
  rfl

/-! Lemmas about the fuelled traversal. -/

theorem traverseAux_head {t : List ((Nat × Nat) × Edge)} {fuel i : Nat}
    {p : List Nat} (h : traverseAux t fuel i = some p) :
    p.head? = some i := by
  cases fuel with
  | zero => simp [traverseAux] at h
  | succ fuel =>
    rw [traverseAux_succ] at h
    cases hn : nextEdgeFrom t i with
    | none =>
      rw [hn] at h
      injection h with h
      subst h
      rfl
    | some kv =>
      rw [hn] at h
      have h' : (traverseAux t fuel kv.1.2).map (fun p => i :: p) = some p := h
      cases hrec : traverseAux t fuel kv.1.2 with
      | none =>
        rw [hrec] at h'
        simp at h'
      | some q =>
        rw [hrec] at h'
        simp only [Option.map_some', Option.some.injEq] at h'
        subst h'
        rfl

theorem traverseAux_no_edges (t : List ((Nat × Nat) × Edge)) (fuel i : Nat)
    (h : rangeFrom t i = []) : traverseAux t (fuel + 1) i = some [i] := by
  rw [traverseAux_succ]
  have hn : nextEdgeFrom t i = none := by
    unfold nextEdgeFrom
    rw [h]
    rfl
  rw [hn]

theorem kbLoop_traverse_none :
    ∀ fuel, traverseAux kbLoop.edge_table fuel 1 = none := by
  intro fuel
  induction fuel with
  | zero => rfl
  | succ fuel ih =>
    rw [traverseAux_succ]
    have h : nextEdgeFrom kbLoop.edge_table 1 = some ((1, 1), ⟨0, "t"⟩) := by
      decide
    rw [h]
    show (traverseAux kbLoop.edge_table fuel 1).map (fun p => 1 :: p) = none
    rw [ih]
    rfl

/-- C7: both BFS closures visit each index at most once (duplicate-free
output) starting with the queried index, and consult only the reference
edge table; on the concrete scenario with reference edge R→X (0→1),
structural edge X→Y (1→2) and no reference edge to Y,
`find_contaminated_nodes(R)` is exactly [R, X] — including X, excluding
the structural successor Y — and `find_referenced_nodes(X)` is [X, R],
including R. -/
theorem C7_bfs_closures :
    (∀ (kb : KnowledgeBase) (s : Nat),
      (find_contaminated_nodes kb s).head? = some s ∧
      (find_contaminated_nodes kb s).Nodup) ∧
    (∀ (kb : KnowledgeBase) (s : Nat),
      (find_referenced_nodes kb s).head? = some s ∧
      (find_referenced_nodes kb s).Nodup) ∧
    find_contaminated_nodes refScenario 0 = [0, 1] ∧
    (1 ∈ find_contaminated_nodes refScenario 0 ∧
      2 ∉ find_contaminated_nodes refScenario 0) ∧
    find_referenced_nodes refScenario 1 = [1, 0] ∧
    0 ∈ find_referenced_nodes refScenario 1 :=
  ⟨fun kb s => ⟨find_contaminated_head kb s, find_contaminated_nodup kb s⟩,
   fun kb s => ⟨find_referenced_head kb s, find_referenced_nodup kb s⟩,
   by decide, by decide, by decide, by decide⟩

/-- C10 (amended): the three query routines perform no bounds check and
never report an absent index.  Both BFS closures always return a list
whose first element is the queried index `i`, and return exactly [i] when
`i` has no edges in the scanned direction of the reference table;
`traverse_latest_path` returns a path starting with `i` whenever it
terminates, and returns exactly [i] when `i` has no outgoing structural
edge — but it fails to terminate when `i` reaches a structural cycle (the
self-loop state `kbLoop` is a concrete instance). -/
theorem C10_absent_index_queries :
    (∀ (kb : KnowledgeBase) (i fuel : Nat) (p : List Nat),
      traverse_latest_path kb fuel i = some p → p.head? = some i) ∧
    (∀ (kb : KnowledgeBase) (i fuel : Nat), rangeFrom kb.edge_table i = [] →
      traverse_latest_path kb (fuel + 1) i = some [i]) ∧
    (∀ (kb : KnowledgeBase) (i : Nat),
      (find_contaminated_nodes kb i).head? = some i) ∧
    (∀ (kb : KnowledgeBase) (i : Nat), rangeFrom kb.ref_table i = [] →
      find_contaminated_nodes kb i = [i]) ∧
    (∀ (kb : KnowledgeBase) (i : Nat),
      (find_referenced_nodes kb i).head? = some i) ∧
    (∀ (kb : KnowledgeBase) (i : Nat), (∀ kv ∈ kb.ref_table, kv.1.2 ≠ i) →
      find_referenced_nodes kb i = [i]) ∧
    (∀ fuel, traverse_latest_path kbLoop fuel 1 = none) :=
  ⟨fun _ _ _ _ h => traverseAux_head h,
   fun kb i fuel h => traverseAux_no_edges kb.edge_table fuel i h,
   fun kb i => find_contaminated_head kb i,
   fun kb i h => find_contaminated_no_edges kb i h,
   fun kb i => find_referenced_head kb i,
   fun kb i h => find_referenced_no_edges kb i h,
   fun fuel => kbLoop_traverse_none fuel⟩

/-- Counterexample for C10 as stated: on the state produced by ingesting
"x\nx" (which contains the self-loop (1, 1)), the traversal from index 1
does not return within 1000 steps — it never detects the cycle and never
returns, so "traverse_latest_path returns normally for every graph state
and start index" is false (the companion amended theorem shows no amount
of fuel suffices). -/
theorem C10_counterexample :
    traverse_latest_path kbLoop 1000 1 = none ∧ node_count kbLoop = 2 :=
  ⟨kbLoop_traverse_none 1000, rfl⟩

/-- Witness for C10 at the empty store and the absent index 5: all three
queries return exactly [5]. -/
theorem C10_witness :
    rangeFrom emptyKB.edge_table 5 = [] ∧
    traverse_latest_path emptyKB 1 5 = some [5] ∧
    rangeFrom emptyKB.ref_table 5 = [] ∧
    find_contaminated_nodes emptyKB 5 = [5] ∧
    find_referenced_nodes emptyKB 5 = [5] :=
  ⟨rfl, C10_absent_index_queries.2.1 emptyKB 5 0 rfl,
   rfl, C10_absent_index_queries.2.2.2.1 emptyKB 5 rfl,
   C10_absent_index_queries.2.2.2.2.2.1 emptyKB 5
     (fun kv hkv => absurd hkv (List.not_mem_nil kv))⟩

/-- C9: evaluation at the failing input.  Ingesting "x\nx" (two identical
non-empty lines) into the empty store deduplicates both lines onto node
index 1 and the window loop records the structural edge (1, 1) — a
self-loop between "consecutive segmented content units" — after which
`traverse_latest_path` from index 1 fails to terminate for every fuel. -/
theorem C9_selfloop_nontermination :
    segmentUnits "x\nx" "f" = [⟨"x", "f"⟩, ⟨"x", "f"⟩] ∧
    idxOfD kbLoop.node_table ⟨"x", "f"⟩ = 1 ∧
    lookupEdge kbLoop.edge_table (1, 1) = some ⟨0, "t"⟩ ∧
    (∀ fuel, traverse_latest_path kbLoop fuel 1 = none) :=
  ⟨by decide, by decide, by decide, fun fuel => kbLoop_traverse_none fuel⟩

/-- C3: evaluation at the failing input.  After ingesting "A" into the
empty store, node A has index 1 and is present; the second ingestion of
"A\nB" under the same filename nevertheless collects index 1 among its
"new node indices" (the first content unit is pushed unconditionally,
unlike the later units whose insert result is checked) and therefore
inserts the reference edge (3, 1) from the supplied reference node refR
(index 3) to the pre-existing content node A. -/
theorem C3_ref_edge_to_preexisting_node :
    Node.mk "A" "f" ∈ c3kb1.node_table ∧
    idxOfD c3kb1.node_table ⟨"A", "f"⟩ = 1 ∧
    (insertMarkdownCore c3kb1 "A\nB" "f" 0 [refR] 1 "t").2.2 = [1, 2] ∧
    idxOfD c3kb2.node_table refR = 3 ∧
    lookupEdge c3kb2.ref_table (3, 1) = some ⟨1, "t"⟩ ∧
    lookupEdge c3kb2.ref_table (3, 2) = some ⟨1, "t"⟩ :=
  ⟨by decide, by decide, by decide, by decide, by decide, by decide⟩

/-- Counterexample for C4 as stated: the first ingestion of
"line1\nline2" into the empty store increases the structural edge count
by 3, not 2 — the parent→file edge (0, 0) is always inserted in addition
to file→line1 and line1→line2. -/
theorem C4_counterexample :
    edge_count c4kb1 = 3 ∧ edge_count emptyKB = 0 ∧
    lookupEdge c4kb1.edge_table (0, 0) = some ⟨0, "t"⟩ :=
  ⟨by decide, rfl, by decide⟩

/-- C4 (amended): ingesting "a.md" with "line1\nline2" into the empty
store adds exactly 3 nodes (file marker plus two lines) and exactly 3
structural edges (parent→file, file→line1, line1→line2); an identical
second ingestion at version 1 changes nothing at all. -/
theorem C4_end_to_end_counts :
    node_count c4kb1 = 3 ∧ edge_count c4kb1 = 3 ∧
    c4kb1.ref_table = [] ∧ c4kb2 = c4kb1 :=
  ⟨by decide, by decide, by decide, by decide⟩

/-- C8: when segmentation yields zero content units, `insert_markdown`
still inserts (or fetches) the file-marker node, inserts the parent→file
structural edge if absent, returns the file-marker index, and leaves the
reference table untouched and everything else unchanged — empty input is
not an error. -/
theorem C8_empty_document (kb : KnowledgeBase) (md fn : String) (p : Nat)
    (refs : List Node) (v : Int) (tg : String)
    (h : segmentUnits md fn = []) :
    (insert_markdown kb md fn p refs v tg).2 =
      idxOfD (insertDedup kb.node_table ⟨"FILE: " ++ fn, fn⟩).1
        ⟨"FILE: " ++ fn, fn⟩ ∧
    (insert_markdown kb md fn p refs v tg).1.node_table =
      (insertDedup kb.node_table ⟨"FILE: " ++ fn, fn⟩).1 ∧
    (insert_markdown kb md fn p refs v tg).1.edge_table =
      insertEdgeSorted kb.edge_table
        (p, idxOfD (insertDedup kb.node_table ⟨"FILE: " ++ fn, fn⟩).1
          ⟨"FILE: " ++ fn, fn⟩) ⟨v, tg⟩ ∧
    (insert_markdown kb md fn p refs v tg).1.ref_table = kb.ref_table := by
  refine ⟨?_, ?_, ?_, ?_⟩ <;> simp only [insert_markdown, insertMarkdownCore, h]

/-- Witness for C8: ingesting the empty document into the empty store
with a reference node returns index 0 and adds nothing but the file
marker and the parent link. -/
theorem C8_witness :
    segmentUnits "" "f" = [] ∧
    (insert_markdown emptyKB "" "f" 0 [refR] 0 "t").2 = 0 ∧
    (insert_markdown emptyKB "" "f" 0 [refR] 0 "t").1.ref_table = [] :=
  ⟨by decide,
   (C8_empty_document emptyKB "" "f" 0 [refR] 0 "t" (by decide)).1.trans
     (by decide),
   (C8_empty_document emptyKB "" "f" 0 [refR] 0 "t" (by decide)).2.2.2⟩
